import Mathlib

/-!
Verification of the `MemoryAllocator` contiguous-memory allocator.

The C++ program keeps a vector of `MemoryBlock {int start; int end; string process}`
(empty `process` means the block is free) inside a `MemoryAllocator` with a fixed
`maxMemory`.  Machine `int`s are modelled by `Int` (all quantities stay tiny, far
from any overflow, and the program performs no wrap-around arithmetic).
`std::sort` with comparator `a.start < b.start` is modelled by an insertion sort
with the same comparator; on the lists the program actually sorts all start
addresses are distinct, so every comparison sort agrees with it.
-/

structure MemoryBlock where
  start : Int
  «end» : Int
  process : String
deriving DecidableEq, Repr

/-- `int size() const { return end - start + 1; }` -/
def MemoryBlock.size (b : MemoryBlock) : Int :=
  b.«end» - b.start + 1

structure MemoryAllocator where
  maxMemory : Int
  blocks : List MemoryBlock
deriving DecidableEq, Repr

/-- The constructor `MemoryAllocator(int size)`: a single free block over the
whole memory. -/
def MemoryAllocator.init (size : Int) : MemoryAllocator :=
  ⟨size, [⟨0, size - 1, ""⟩]⟩

/-- Insert a block in front of the first strictly larger start address. -/
def insertBlock (b : MemoryBlock) : List MemoryBlock → List MemoryBlock
  | [] => [b]
  | c :: cs => if b.start < c.start then b :: c :: cs else c :: insertBlock b cs

/-- `std::sort(blocks.begin(), blocks.end(), [](a, b){ return a.start < b.start; })`. -/
def sortBlocks : List MemoryBlock → List MemoryBlock
  | [] => []
  | b :: bs => insertBlock b (sortBlocks bs)

/-- The shared splitting step of the three allocation strategies, acting on the
chosen index `i`: shrink the chosen block when it is strictly larger than the
request (`blocks[i].start = end + 1`), erase it on an exact fit, push the new
allocated block, and re-sort. -/
def allocAt (p : String) (n : Int) (bs : List MemoryBlock) (i : Nat) : List MemoryBlock :=
  match bs[i]? with
  | none => bs
  | some b =>
    let s := b.start
    let e := s + n - 1
    let bs' := if n < b.size then bs.set i { b with start := e + 1 } else bs.eraseIdx i
    sortBlocks (bs' ++ [⟨s, e, p⟩])

/-- The scan of `allocateFirstFit`: index of the first free block whose size is
at least `n`. -/
def findFirstFit (n : Int) : List MemoryBlock → Option Nat
  | [] => none
  | b :: bs =>
    if b.process = "" ∧ n ≤ b.size then some 0
    else (findFirstFit n bs).map (· + 1)

/-- `bool allocateFirstFit(const string& process, int size)`. -/
def MemoryAllocator.allocateFirstFit (p : String) (n : Int) (a : MemoryAllocator) :
    Bool × MemoryAllocator :=
  match findFirstFit n a.blocks with
  | none => (false, a)
  | some i => (true, { a with blocks := allocAt p n a.blocks i })

/-- The scan of `allocateBestFit`: running over the vector with the candidate
index `best` and the running `bestSize`, updating on `size < bestFitSize`. -/
def bestFitLoop (n : Int) : List MemoryBlock → Nat → Int → Option Nat → Option Nat
  | [], _, _, best => best
  | b :: bs, i, bestSize, best =>
    if b.process = "" ∧ n ≤ b.size ∧ b.size < bestSize then
      bestFitLoop n bs (i + 1) b.size (some i)
    else
      bestFitLoop n bs (i + 1) bestSize best

/-- `bool allocateBestFit(const string& process, int size)`; `bestFitSize` starts
at `maxMemory + 1`. -/
def MemoryAllocator.allocateBestFit (p : String) (n : Int) (a : MemoryAllocator) :
    Bool × MemoryAllocator :=
  match bestFitLoop n a.blocks 0 (a.maxMemory + 1) none with
  | none => (false, a)
  | some i => (true, { a with blocks := allocAt p n a.blocks i })

/-- The scan of `allocateWorstFit`, updating on `size > worstFitSize`. -/
def worstFitLoop (n : Int) : List MemoryBlock → Nat → Int → Option Nat → Option Nat
  | [], _, _, best => best
  | b :: bs, i, worstSize, best =>
    if b.process = "" ∧ n ≤ b.size ∧ worstSize < b.size then
      worstFitLoop n bs (i + 1) b.size (some i)
    else
      worstFitLoop n bs (i + 1) worstSize best

/-- `bool allocateWorstFit(const string& process, int size)`; `worstFitSize`
starts at `-1`. -/
def MemoryAllocator.allocateWorstFit (p : String) (n : Int) (a : MemoryAllocator) :
    Bool × MemoryAllocator :=
  match worstFitLoop n a.blocks 0 (-1) none with
  | none => (false, a)
  | some i => (true, { a with blocks := allocAt p n a.blocks i })

/-- `blocks[i].process = "";` -/
def setFreeAt (bs : List MemoryBlock) (i : Nat) : List MemoryBlock :=
  match bs[i]? with
  | none => bs
  | some b => bs.set i { b with process := "" }

/-- The merging loop of `mergeAdjacentFreeBlocks`: on two consecutive free
blocks, absorb the second into the first and re-examine the same position. -/
def mergeGo : List MemoryBlock → List MemoryBlock
  | [] => []
  | [b] => [b]
  | b :: c :: rest =>
    if b.process = "" ∧ c.process = "" then
      mergeGo ({ b with «end» := c.«end» } :: rest)
    else
      b :: mergeGo (c :: rest)
termination_by l => l.length
decreasing_by
  · simp
  · simp [Nat.lt_succ_iff]

/-- `void mergeAdjacentFreeBlocks()`: sort by start address, then merge. -/
def mergeAdjacentFreeBlocks (bs : List MemoryBlock) : List MemoryBlock :=
  mergeGo (sortBlocks bs)

/-- The scan of `release`: walk the vector by index; on every block labelled
`p`, clear the label and immediately run `mergeAdjacentFreeBlocks` (which may
shrink the vector under the running index, exactly as in the C++ loop). -/
def releaseLoop (p : String) (i : Nat) (found : Bool) (bs : List MemoryBlock) :
    Bool × List MemoryBlock :=
  if h : i < bs.length then
    if (bs.get ⟨i, h⟩).process = p then
      releaseLoop p (i + 1) true (mergeAdjacentFreeBlocks (setFreeAt bs i))
    else
      releaseLoop p (i + 1) found bs
  else
    (found, bs)
termination_by bs.length - i
decreasing_by
  · have hins : ∀ (c : MemoryBlock) (m : List MemoryBlock),
        (insertBlock c m).length = m.length + 1 := by
      intro c m
      induction m with
      | nil => rfl
      | cons d m ihm =>
        by_cases hlt : c.start < d.start
        · simp [insertBlock, hlt]
        · simp [insertBlock, hlt, ihm]
    have hsort : ∀ l : List MemoryBlock, (sortBlocks l).length = l.length := by
      intro l
      induction l with
      | nil => rfl
      | cons b l ih => simp [sortBlocks, hins, ih]
    have hmerge : ∀ (m : Nat) (l : List MemoryBlock), l.length ≤ m →
        (mergeGo l).length ≤ l.length := by
      intro m
      induction m with
      | zero =>
        intro l hl
        have hnil : l = [] := List.length_eq_zero.mp (Nat.le_zero.mp hl)
        subst hnil
        simp [mergeGo]
      | succ m ih =>
        intro l hl
        rcases l with _ | ⟨b, _ | ⟨c, rest⟩⟩
        · simp [mergeGo]
        · simp [mergeGo]
        · rw [mergeGo]
          by_cases hbc : b.process = "" ∧ c.process = ""
          · rw [if_pos hbc]
            have hle := ih ({ b with «end» := c.«end» } :: rest) (by
              simp at hl ⊢
              omega)
            simp at hle ⊢
            omega
          · rw [if_neg hbc]
            have hle := ih (c :: rest) (by
              simp at hl ⊢
              omega)
            simp at hle ⊢
            omega
    have hsf : (setFreeAt bs i).length = bs.length := by
      unfold setFreeAt
      cases bs[i]? with
      | none => rfl
      | some b => simp
    have hlen : (mergeAdjacentFreeBlocks (setFreeAt bs i)).length ≤ bs.length := by
      unfold mergeAdjacentFreeBlocks
      calc (mergeGo (sortBlocks (setFreeAt bs i))).length
          ≤ (sortBlocks (setFreeAt bs i)).length :=
            hmerge _ _ (Nat.le_refl _)
        _ = bs.length := by rw [hsort, hsf]
    omega
  · omega

/-- `bool release(const string& process)`. -/
def MemoryAllocator.release (p : String) (a : MemoryAllocator) : Bool × MemoryAllocator :=
  let r := releaseLoop p 0 false a.blocks
  (r.1, { a with blocks := r.2 })

/-- The relocation loop of `compact`: copy every allocated block, in order, to
the running `nextFreeAddress`; also return the final `nextFreeAddress`. -/
def compactGo : List MemoryBlock → Int → List MemoryBlock × Int
  | [], next => ([], next)
  | b :: bs, next =>
    if b.process = "" then compactGo bs next
    else
      let r := compactGo bs (next + b.size)
      (⟨next, next + b.size - 1, b.process⟩ :: r.1, r.2)

/-- `void compact()`: sort, pack the allocated blocks to the low addresses, and
append one trailing free block when space remains. -/
def MemoryAllocator.compact (a : MemoryAllocator) : MemoryAllocator :=
  let r := compactGo (sortBlocks a.blocks) 0
  ⟨a.maxMemory, if r.2 < a.maxMemory then r.1 ++ [⟨r.2, a.maxMemory - 1, ""⟩] else r.1⟩

/-- `bool processRequest(const string& process, int size, char strategy)`:
dispatch on the strategy character, rejecting everything outside `F`, `B`, `W`. -/
def MemoryAllocator.processRequest (p : String) (n : Int) (strategy : Char)
    (a : MemoryAllocator) : Bool × MemoryAllocator :=
  if strategy = 'F' then a.allocateFirstFit p n
  else if strategy = 'B' then a.allocateBestFit p n
  else if strategy = 'W' then a.allocateWorstFit p n
  else (false, a)

/-! ## Specification predicates -/

/-- Comparator order on start addresses (non-strict). -/
def startLE (b c : MemoryBlock) : Prop :=
  b.start ≤ c.start

/-- Comparator order on start addresses (strict), the `std::sort` comparator. -/
def startLT (b c : MemoryBlock) : Prop :=
  b.start < c.start

instance (b c : MemoryBlock) : Decidable (startLE b c) :=
  inferInstanceAs (Decidable (b.start ≤ c.start))

instance (b c : MemoryBlock) : Decidable (startLT b c) :=
  inferInstanceAs (Decidable (b.start < c.start))

/-- `covers pos cap l`: the blocks of `l`, in list order, tile the address range
`[pos, cap)` exactly: each block starts where the previous one ended plus one,
every block is nonempty, and the last block ends at `cap - 1`.  With `pos = 0`
this is the partition invariant: sorted by ascending start, pairwise disjoint,
no gaps, union `[0, cap)`. -/
def covers (pos cap : Int) : List MemoryBlock → Prop
  | [] => pos = cap
  | b :: bs => b.start = pos ∧ b.start ≤ b.«end» ∧ covers (b.«end» + 1) cap bs

instance instDecidableCovers (pos cap : Int) :
    (l : List MemoryBlock) → Decidable (covers pos cap l)
  | [] => inferInstanceAs (Decidable (pos = cap))
  | b :: bs =>
    have : Decidable (covers (b.«end» + 1) cap bs) := instDecidableCovers _ _ bs
    inferInstanceAs (Decidable (_ ∧ _ ∧ _))

/-- Two neighbouring blocks are acceptable unless both are free. -/
def freeOK (b c : MemoryBlock) : Prop :=
  ¬(b.process = "" ∧ c.process = "")

instance (b c : MemoryBlock) : Decidable (freeOK b c) :=
  inferInstanceAs (Decidable (¬(_ ∧ _)))

/-- No two consecutive blocks are both free. -/
def noAdjFree (l : List MemoryBlock) : Prop :=
  l.Chain' freeOK

instance (l : List MemoryBlock) : Decidable (noAdjFree l) :=
  inferInstanceAs (Decidable (l.Chain' freeOK))

/-- Sum of the sizes of a list of blocks. -/
def sizeTotal (l : List MemoryBlock) : Int :=
  (l.map MemoryBlock.size).sum

/-- The packed image of a list of blocks starting at `pos`: each block is
relocated, keeping its size and label, to the running next free address. -/
def packList (pos : Int) : List MemoryBlock → List MemoryBlock
  | [] => []
  | b :: bs => ⟨pos, pos + b.size - 1, b.process⟩ :: packList (pos + b.size) bs

/-- States reachable from the freshly constructed allocator of positive
capacity by any sequence of allocation requests (positive size, a real owner
label, one of the three strategy letters), releases, and compactions. -/
inductive Reachable (cap : Int) : MemoryAllocator → Prop
  | init : 0 < cap → Reachable cap (MemoryAllocator.init cap)
  | alloc {a : MemoryAllocator} {p : String} {n : Int} {c : Char} :
      Reachable cap a → 0 < n → p ≠ "" → (c = 'F' ∨ c = 'B' ∨ c = 'W') →
      Reachable cap (a.processRequest p n c).2
  | rel {a : MemoryAllocator} (p : String) :
      Reachable cap a → Reachable cap (a.release p).2
  | comp {a : MemoryAllocator} :
      Reachable cap a → Reachable cap a.compact

/-! ## Sorting lemmas -/

theorem insertBlock_perm (b : MemoryBlock) (l : List MemoryBlock) :
    (insertBlock b l).Perm (b :: l) := by
  induction l with
  | nil => exact List.Perm.refl _
  | cons c cs ih =>
    by_cases h : b.start < c.start
    · simp [insertBlock, h]
    · simp only [insertBlock, if_neg h]
      exact (ih.cons c).trans (List.Perm.swap b c cs)

theorem sortBlocks_perm (l : List MemoryBlock) : (sortBlocks l).Perm l := by
  induction l with
  | nil => exact List.Perm.refl _
  | cons b bs ih =>
    exact (insertBlock_perm b (sortBlocks bs)).trans (ih.cons b)

theorem insertBlock_sorted (b : MemoryBlock) (l : List MemoryBlock)
    (h : l.Pairwise startLE) : (insertBlock b l).Pairwise startLE := by
  induction l with
  | nil => simp [insertBlock, List.Pairwise]
  | cons c cs ih =>
    rcases List.pairwise_cons.mp h with ⟨hc, hcs⟩
    by_cases hlt : b.start < c.start
    · simp only [insertBlock, if_pos hlt]
      refine List.pairwise_cons.mpr ⟨?_, h⟩
      intro x hx
      rcases List.mem_cons.mp hx with hx | hx
      · exact le_of_lt (hx ▸ hlt)
      · exact le_trans (le_of_lt hlt) (hc x hx)
    · simp only [insertBlock, if_neg hlt]
      refine List.pairwise_cons.mpr ⟨?_, ih hcs⟩
      intro x hx
      rcases List.mem_cons.mp ((insertBlock_perm b cs).mem_iff.mp hx) with hx' | hx'
      · subst hx'
        exact le_of_not_lt hlt
      · exact hc x hx'

theorem sortBlocks_sorted (l : List MemoryBlock) :
    (sortBlocks l).Pairwise startLE := by
  induction l with
  | nil => simp [sortBlocks, List.Pairwise]
  | cons b bs ih => exact insertBlock_sorted b (sortBlocks bs) ih

instance : IsAntisymm MemoryBlock startLT :=
  ⟨fun _ _ h h' => absurd h' (not_lt.mpr (le_of_lt h))⟩

/-- On a list whose intended order is strict in the comparator key, any
comparison sort has a unique result; this pins down `std::sort`. -/
theorem sortBlocks_eq_of_perm_sorted {l l' : List MemoryBlock}
    (hp : l.Perm l') (hs : l'.Pairwise startLT) : sortBlocks l = l' := by
  have hperm : (sortBlocks l).Perm l' := (sortBlocks_perm l).trans hp
  have hne : l'.Pairwise (fun b c => b.start ≠ c.start) :=
    hs.imp (fun h => ne_of_lt h)
  have hne' : (sortBlocks l).Pairwise (fun b c => b.start ≠ c.start) :=
    (List.Perm.pairwise_iff (fun h => h.symm) hperm).mpr hne
  have hle : (sortBlocks l).Pairwise startLE := sortBlocks_sorted l
  have hlt : (sortBlocks l).Pairwise startLT := by
    have hand := hle.and hne'
    exact hand.imp (fun h => lt_of_le_of_ne h.1 h.2)
  exact List.eq_of_perm_of_sorted hperm hlt hs

theorem sortBlocks_eq_self {l : List MemoryBlock}
    (h : l.Pairwise startLT) : sortBlocks l = l :=
  sortBlocks_eq_of_perm_sorted (List.Perm.refl l) h

/-! ## Facts about `covers` -/

theorem covers_le {pos cap : Int} : ∀ {l : List MemoryBlock}, covers pos cap l → pos ≤ cap := by
  intro l
  induction l generalizing pos with
  | nil => intro h; exact le_of_eq h
  | cons b bs ih =>
    intro h
    rcases h with ⟨hstart, hsize, hrest⟩
    have := ih hrest
    omega

theorem covers_append {cap : Int} :
    ∀ {xs ys : List MemoryBlock} {pos : Int},
      covers pos cap (xs ++ ys) ↔ ∃ mid, covers pos mid xs ∧ covers mid cap ys := by
  intro xs
  induction xs with
  | nil =>
    intro ys pos
    constructor
    · intro h
      exact ⟨pos, rfl, h⟩
    · intro h
      rcases h with ⟨mid, hmid, hys⟩
      have : pos = mid := hmid
      simpa [this] using hys
  | cons b bs ih =>
    intro ys pos
    constructor
    · intro h
      rcases h with ⟨hstart, hsize, hrest⟩
      rcases ih.mp hrest with ⟨mid, h1, h2⟩
      exact ⟨mid, ⟨hstart, hsize, h1⟩, h2⟩
    · intro h
      rcases h with ⟨mid, ⟨hstart, hsize, h1⟩, h2⟩
      exact ⟨hstart, hsize, ih.mpr ⟨mid, h1, h2⟩⟩

theorem covers_start_lb {pos cap : Int} :
    ∀ {l : List MemoryBlock}, covers pos cap l → ∀ b ∈ l, pos ≤ b.start := by
  intro l
  induction l generalizing pos with
  | nil => intro _ b hb; exact absurd hb (List.not_mem_nil b)
  | cons c cs ih =>
    intro h b hb
    rcases h with ⟨hstart, hsize, hrest⟩
    rcases List.mem_cons.mp hb with hb | hb
    · exact le_of_eq (hb ▸ hstart).symm
    · have := ih hrest b hb
      omega

theorem covers_end_ub {pos cap : Int} :
    ∀ {l : List MemoryBlock}, covers pos cap l → ∀ b ∈ l, b.«end» < cap := by
  intro l
  induction l generalizing pos with
  | nil => intro _ b hb; exact absurd hb (List.not_mem_nil b)
  | cons c cs ih =>
    intro h b hb
    rcases h with ⟨hstart, hsize, hrest⟩
    rcases List.mem_cons.mp hb with hb | hb
    · subst hb
      have := covers_le hrest
      omega
    · exact ih hrest b hb

theorem covers_size_pos {pos cap : Int} :
    ∀ {l : List MemoryBlock}, covers pos cap l → ∀ b ∈ l, 0 < b.size := by
  intro l
  induction l generalizing pos with
  | nil => intro _ b hb; exact absurd hb (List.not_mem_nil b)
  | cons c cs ih =>
    intro h b hb
    rcases h with ⟨hstart, hsize, hrest⟩
    rcases List.mem_cons.mp hb with hb | hb
    · subst hb
      unfold MemoryBlock.size
      omega
    · exact ih hrest b hb

theorem covers_size_le {pos cap : Int} :
    ∀ {l : List MemoryBlock}, covers pos cap l → ∀ b ∈ l, b.size ≤ cap - pos := by
  intro l
  induction l generalizing pos with
  | nil => intro _ b hb; exact absurd hb (List.not_mem_nil b)
  | cons c cs ih =>
    intro h b hb
    rcases h with ⟨hstart, hsize, hrest⟩
    rcases List.mem_cons.mp hb with hb | hb
    · subst hb
      have := covers_le hrest
      unfold MemoryBlock.size
      omega
    · have := ih hrest b hb
      omega

theorem covers_pairwise_end {pos cap : Int} :
    ∀ {l : List MemoryBlock}, covers pos cap l →
      l.Pairwise (fun b c => b.«end» < c.start) := by
  intro l
  induction l generalizing pos with
  | nil => intro _; exact List.Pairwise.nil
  | cons c cs ih =>
    intro h
    rcases h with ⟨hstart, hsize, hrest⟩
    refine List.pairwise_cons.mpr ⟨?_, ih hrest⟩
    intro b hb
    have := covers_start_lb hrest b hb
    omega

theorem covers_pairwise_lt {pos cap : Int} :
    ∀ {l : List MemoryBlock}, covers pos cap l → l.Pairwise startLT := by
  intro l
  induction l generalizing pos with
  | nil => intro _; exact List.Pairwise.nil
  | cons c cs ih =>
    intro h
    rcases h with ⟨hstart, hsize, hrest⟩
    refine List.pairwise_cons.mpr ⟨?_, ih hrest⟩
    intro b hb
    have := covers_start_lb hrest b hb
    unfold startLT
    omega

theorem covers_mem_range {pos cap : Int} :
    ∀ {l : List MemoryBlock}, covers pos cap l → ∀ x : Int,
      (pos ≤ x ∧ x < cap) ↔ ∃ b ∈ l, b.start ≤ x ∧ x ≤ b.«end» := by
  intro l
  induction l generalizing pos with
  | nil =>
    intro h x
    have : pos = cap := h
    subst this
    constructor
    · intro hx; omega
    · intro hx
      rcases hx with ⟨b, hb, _⟩
      exact absurd hb (List.not_mem_nil b)
  | cons c cs ih =>
    intro h x
    rcases h with ⟨hstart, hsize, hrest⟩
    constructor
    · intro hx
      by_cases hxc : x ≤ c.«end»
      · exact ⟨c, List.mem_cons_self c cs, by omega, hxc⟩
      · have hx' : c.«end» + 1 ≤ x ∧ x < cap := by omega
        rcases (ih hrest x).mp hx' with ⟨b, hb, hbx⟩
        exact ⟨b, List.mem_cons_of_mem c hb, hbx⟩
    · intro hx
      rcases hx with ⟨b, hb, hb1, hb2⟩
      rcases List.mem_cons.mp hb with hb | hb
      · subst hb
        have := covers_le hrest
        omega
      · have h1 := covers_start_lb hrest b hb
        have h2 := covers_end_ub hrest b hb
        omega

theorem covers_sizeTotal {pos cap : Int} :
    ∀ {l : List MemoryBlock}, covers pos cap l → sizeTotal l = cap - pos := by
  intro l
  induction l generalizing pos with
  | nil =>
    intro h
    have : pos = cap := h
    simp [sizeTotal, this]
  | cons c cs ih =>
    intro h
    rcases h with ⟨hstart, hsize, hrest⟩
    have hcs := ih hrest
    unfold sizeTotal at hcs ⊢
    simp only [List.map_cons, List.sum_cons]
    have hc : c.size = c.«end» - c.start + 1 := rfl
    omega

theorem sizeTotal_filter_le (f : MemoryBlock → Bool) :
    ∀ {l : List MemoryBlock}, (∀ b ∈ l, 0 ≤ b.size) →
      sizeTotal (l.filter f) ≤ sizeTotal l := by
  intro l
  induction l with
  | nil => intro _; simp [sizeTotal]
  | cons c cs ih =>
    intro h
    have hc : 0 ≤ c.size := h c (List.mem_cons_self c cs)
    have hcs := ih (fun b hb => h b (List.mem_cons_of_mem c hb))
    by_cases hf : f c
    · simp only [List.filter_cons, hf, if_pos]
      unfold sizeTotal at hcs ⊢
      simp only [List.map_cons, List.sum_cons]
      omega
    · simp only [List.filter_cons]
      rw [if_neg (by simpa using hf)]
      unfold sizeTotal at hcs ⊢
      simp only [List.map_cons, List.sum_cons]
      omega

/-! ## The splitting step of allocation -/

theorem eq_take_get_drop {l : List MemoryBlock} {i : Nat} (hi : i < l.length) :
    l = l.take i ++ l.get ⟨i, hi⟩ :: l.drop (i + 1) := by
  have h1 := List.take_append_drop i l
  rw [← List.getElem_cons_drop l i hi] at h1
  rw [List.get_eq_getElem]
  exact h1.symm

theorem allocAt_splice {bs : List MemoryBlock} {cap n : Int} (p : String) {i : Nat}
    (hc : covers 0 cap bs) (hi : i < bs.length) (hn : 0 < n)
    (hsize : n ≤ (bs.get ⟨i, hi⟩).size) :
    allocAt p n bs i =
      bs.take i ++
        MemoryBlock.mk (bs.get ⟨i, hi⟩).start ((bs.get ⟨i, hi⟩).start + n - 1) p ::
          (if n < (bs.get ⟨i, hi⟩).size then
            { bs.get ⟨i, hi⟩ with start := (bs.get ⟨i, hi⟩).start + n } :: bs.drop (i + 1)
          else bs.drop (i + 1)) ∧
    covers 0 cap
      (bs.take i ++
        MemoryBlock.mk (bs.get ⟨i, hi⟩).start ((bs.get ⟨i, hi⟩).start + n - 1) p ::
          (if n < (bs.get ⟨i, hi⟩).size then
            { bs.get ⟨i, hi⟩ with start := (bs.get ⟨i, hi⟩).start + n } :: bs.drop (i + 1)
          else bs.drop (i + 1))) := by
  set b := bs.get ⟨i, hi⟩ with hb
  have hget : bs[i]? = some b := by
    rw [List.getElem?_eq_getElem hi]
    simp [hb, List.get_eq_getElem]
  have hdecomp : bs = bs.take i ++ b :: bs.drop (i + 1) := eq_take_get_drop hi
  have hsplit := covers_append.mp (hdecomp ▸ hc)
  rcases hsplit with ⟨mid, htake, hcons⟩
  rcases hcons with ⟨hstart, hbe, hdrop⟩
  have hsz : b.size = b.«end» - b.start + 1 := rfl
  by_cases hlt : n < b.size
  · -- the chosen block is strictly larger: it is shrunk in place
    have hT : covers 0 cap
        (bs.take i ++ MemoryBlock.mk b.start (b.start + n - 1) p ::
          { b with start := b.start + n } :: bs.drop (i + 1)) := by
      refine covers_append.mpr ⟨mid, htake, ?_⟩
      refine ⟨by dsimp only; omega, by dsimp only; omega, ?_⟩
      refine ⟨by dsimp only; omega, by dsimp only; omega, ?_⟩
      show covers (b.«end» + 1) cap _
      exact hdrop
    have hperm : (bs.set i { b with start := b.start + n - 1 + 1 } ++
          [MemoryBlock.mk b.start (b.start + n - 1) p]).Perm
        (bs.take i ++ MemoryBlock.mk b.start (b.start + n - 1) p ::
          { b with start := b.start + n } :: bs.drop (i + 1)) := by
      have hx : b.start + n - 1 + 1 = b.start + n := by omega
      rw [hx, List.set_eq_take_cons_drop _ hi]
      refine (List.perm_append_singleton _ _).trans ?_
      exact List.perm_middle.symm
    have heq : allocAt p n bs i =
        bs.take i ++ MemoryBlock.mk b.start (b.start + n - 1) p ::
          { b with start := b.start + n } :: bs.drop (i + 1) := by
      unfold allocAt
      rw [hget]
      simp only [if_pos hlt]
      exact sortBlocks_eq_of_perm_sorted hperm (covers_pairwise_lt hT)
    rw [if_pos hlt]
    exact ⟨heq, hT⟩
  · -- exact fit: the chosen block is erased
    have hex : b.size = n := le_antisymm (le_of_not_lt hlt) hsize
    have hT : covers 0 cap
        (bs.take i ++ MemoryBlock.mk b.start (b.start + n - 1) p :: bs.drop (i + 1)) := by
      refine covers_append.mpr ⟨mid, htake, ?_⟩
      refine ⟨by dsimp only; omega, by dsimp only; omega, ?_⟩
      show covers (b.start + n - 1 + 1) cap _
      have he : b.start + n - 1 + 1 = b.«end» + 1 := by omega
      rw [he]
      exact hdrop
    have hperm : (bs.eraseIdx i ++ [MemoryBlock.mk b.start (b.start + n - 1) p]).Perm
        (bs.take i ++ MemoryBlock.mk b.start (b.start + n - 1) p :: bs.drop (i + 1)) := by
      rw [List.eraseIdx_eq_take_drop_succ]
      refine (List.perm_append_singleton _ _).trans ?_
      refine (List.Perm.cons _ ?_).trans List.perm_middle.symm
      exact List.Perm.refl _
    have heq : allocAt p n bs i =
        bs.take i ++ MemoryBlock.mk b.start (b.start + n - 1) p :: bs.drop (i + 1) := by
      unfold allocAt
      rw [hget]
      simp only [if_neg hlt]
      exact sortBlocks_eq_of_perm_sorted hperm (covers_pairwise_lt hT)
    rw [if_neg hlt]
    exact ⟨heq, hT⟩

theorem allocAt_noAdjFree {bs : List MemoryBlock} {cap n : Int} {p : String} {i : Nat}
    (hc : covers 0 cap bs) (hi : i < bs.length) (hn : 0 < n)
    (hsize : n ≤ (bs.get ⟨i, hi⟩).size) (hp : p ≠ "")
    (hadj : noAdjFree bs) : noAdjFree (allocAt p n bs i) := by
  rcases allocAt_splice p hc hi hn hsize with ⟨heq, _⟩
  rw [heq]
  set b := bs.get ⟨i, hi⟩ with hb
  have hdecomp : bs = bs.take i ++ b :: bs.drop (i + 1) := eq_take_get_drop hi
  unfold noAdjFree at hadj ⊢
  rw [hdecomp] at hadj
  rcases List.chain'_append.mp hadj with ⟨h1, h2, h3⟩
  rcases List.chain'_cons'.mp h2 with ⟨hbd, hdropchain⟩
  refine List.chain'_append.mpr ⟨h1, ?_, ?_⟩
  · refine List.chain'_cons'.mpr ⟨?_, ?_⟩
    · intro y hy
      unfold freeOK
      intro hcon
      exact hp hcon.1
    · by_cases hlt : n < b.size
      · rw [if_pos hlt]
        refine List.chain'_cons'.mpr ⟨?_, hdropchain⟩
        intro y hy
        have hby := hbd y hy
        unfold freeOK at hby ⊢
        intro hcon
        exact hby ⟨hcon.1, hcon.2⟩
      · rw [if_neg hlt]
        exact hdropchain
  · intro x hx y hy
    by_cases hlt : n < b.size
    · rw [if_pos hlt] at hy
      simp only [List.head?_cons, Option.mem_def, Option.some.injEq] at hy
      subst hy
      unfold freeOK
      intro hcon
      exact hp hcon.2
    · rw [if_neg hlt] at hy
      simp only [List.head?_cons, Option.mem_def, Option.some.injEq] at hy
      subst hy
      unfold freeOK
      intro hcon
      exact hp hcon.2

/-! ## The three scans -/

theorem findFirstFit_none {n : Int} :
    ∀ {l : List MemoryBlock}, findFirstFit n l = none →
      ∀ b ∈ l, ¬(b.process = "" ∧ n ≤ b.size) := by
  intro l
  induction l with
  | nil => intro _ b hb; exact absurd hb (List.not_mem_nil b)
  | cons c cs ih =>
    intro h b hb
    by_cases hc : c.process = "" ∧ n ≤ c.size
    · rw [findFirstFit, if_pos hc] at h
      exact absurd h (by simp)
    · rw [findFirstFit, if_neg hc] at h
      rcases List.mem_cons.mp hb with hb | hb
      · exact hb ▸ hc
      · exact ih (by simpa using h) b hb

theorem findFirstFit_some {n : Int} :
    ∀ {l : List MemoryBlock} {i : Nat}, findFirstFit n l = some i →
      ∃ b, l[i]? = some b ∧ b.process = "" ∧ n ≤ b.size ∧
        ∀ j c, j < i → l[j]? = some c → ¬(c.process = "" ∧ n ≤ c.size) := by
  intro l
  induction l with
  | nil => intro i h; exact absurd h (by simp [findFirstFit])
  | cons d cs ih =>
    intro i h
    by_cases hd : d.process = "" ∧ n ≤ d.size
    · rw [findFirstFit, if_pos hd] at h
      have hi : i = 0 := by simpa using h.symm
      subst hi
      exact ⟨d, by simp, hd.1, hd.2, fun j c hj _ => absurd hj (Nat.not_lt_zero j)⟩
    · rw [findFirstFit, if_neg hd] at h
      rcases Option.map_eq_some'.mp h with ⟨i', hi', hii⟩
      subst hii
      rcases ih hi' with ⟨b, hb, hb1, hb2, hprev⟩
      refine ⟨b, by simpa using hb, hb1, hb2, ?_⟩
      intro j c hj hc
      cases j with
      | zero =>
        have hcd : d = c := by simpa using hc
        exact hcd ▸ hd
      | succ j' =>
        exact hprev j' c (by omega) (by simpa using hc)

theorem bestFitLoop_not_found {n : Int} :
    ∀ {l : List MemoryBlock} {i0 : Nat} {s : Int} {acc : Option Nat},
      (∀ b ∈ l, ¬(b.process = "" ∧ n ≤ b.size)) →
      bestFitLoop n l i0 s acc = acc := by
  intro l
  induction l with
  | nil => intro i0 s acc _; rfl
  | cons c cs ih =>
    intro i0 s acc h
    have hc : ¬(c.process = "" ∧ n ≤ c.size ∧ c.size < s) := by
      intro hcon
      exact h c (List.mem_cons_self c cs) ⟨hcon.1, hcon.2.1⟩
    rw [bestFitLoop, if_neg hc]
    exact ih (fun b hb => h b (List.mem_cons_of_mem c hb))

theorem worstFitLoop_not_found {n : Int} :
    ∀ {l : List MemoryBlock} {i0 : Nat} {s : Int} {acc : Option Nat},
      (∀ b ∈ l, ¬(b.process = "" ∧ n ≤ b.size)) →
      worstFitLoop n l i0 s acc = acc := by
  intro l
  induction l with
  | nil => intro i0 s acc _; rfl
  | cons c cs ih =>
    intro i0 s acc h
    have hc : ¬(c.process = "" ∧ n ≤ c.size ∧ s < c.size) := by
      intro hcon
      exact h c (List.mem_cons_self c cs) ⟨hcon.1, hcon.2.1⟩
    rw [worstFitLoop, if_neg hc]
    exact ih (fun b hb => h b (List.mem_cons_of_mem c hb))

theorem bestFitLoop_none {n : Int} :
    ∀ {l : List MemoryBlock} {i0 : Nat} {s : Int} {acc : Option Nat},
      bestFitLoop n l i0 s acc = none →
      acc = none ∧ ∀ b ∈ l, ¬(b.process = "" ∧ n ≤ b.size ∧ b.size < s) := by
  intro l
  induction l with
  | nil => intro i0 s acc h; exact ⟨h, by simp⟩
  | cons c cs ih =>
    intro i0 s acc h
    by_cases hc : c.process = "" ∧ n ≤ c.size ∧ c.size < s
    · rw [bestFitLoop, if_pos hc] at h
      rcases ih h with ⟨hnone, _⟩
      exact absurd hnone (by simp)
    · rw [bestFitLoop, if_neg hc] at h
      rcases ih h with ⟨hnone, hrest⟩
      refine ⟨hnone, ?_⟩
      intro b hb
      rcases List.mem_cons.mp hb with hb | hb
      · exact hb ▸ hc
      · exact hrest b hb

theorem worstFitLoop_none {n : Int} :
    ∀ {l : List MemoryBlock} {i0 : Nat} {s : Int} {acc : Option Nat},
      worstFitLoop n l i0 s acc = none →
      acc = none ∧ ∀ b ∈ l, ¬(b.process = "" ∧ n ≤ b.size ∧ s < b.size) := by
  intro l
  induction l with
  | nil => intro i0 s acc h; exact ⟨h, by simp⟩
  | cons c cs ih =>
    intro i0 s acc h
    by_cases hc : c.process = "" ∧ n ≤ c.size ∧ s < c.size
    · rw [worstFitLoop, if_pos hc] at h
      rcases ih h with ⟨hnone, _⟩
      exact absurd hnone (by simp)
    · rw [worstFitLoop, if_neg hc] at h
      rcases ih h with ⟨hnone, hrest⟩
      refine ⟨hnone, ?_⟩
      intro b hb
      rcases List.mem_cons.mp hb with hb | hb
      · exact hb ▸ hc
      · exact hrest b hb

theorem bestFitLoop_some {n : Int} :
    ∀ {l : List MemoryBlock} {i0 : Nat} {s : Int} {acc : Option Nat} {j : Nat},
      bestFitLoop n l i0 s acc = some j →
      (acc = some j ∧ ∀ b ∈ l, ¬(b.process = "" ∧ n ≤ b.size ∧ b.size < s)) ∨
      (∃ k kb, l[k]? = some kb ∧ j = i0 + k ∧
        kb.process = "" ∧ n ≤ kb.size ∧ kb.size < s ∧
        (∀ (m : Nat) (c : MemoryBlock), l[m]? = some c → c.process = "" → n ≤ c.size →
          kb.size ≤ c.size ∨ s ≤ c.size) ∧
        (∀ (m : Nat) (c : MemoryBlock), m < k → l[m]? = some c → c.process = "" →
          n ≤ c.size → kb.size < c.size ∨ s ≤ c.size)) := by
  intro l
  induction l with
  | nil => intro i0 s acc j h; exact Or.inl ⟨h, by simp⟩
  | cons d cs ih =>
    intro i0 s acc j h
    by_cases hd : d.process = "" ∧ n ≤ d.size ∧ d.size < s
    · rw [bestFitLoop, if_pos hd] at h
      rcases ih h with ⟨hacc, hnone⟩ | ⟨k', kb, hkb, hj, hkb1, hkb2, hkb3, hall, hearly⟩
      · have hj : j = i0 := by simpa using hacc.symm
        refine Or.inr ⟨0, d, by simp, by omega, hd.1, hd.2.1, hd.2.2, ?_, ?_⟩
        · intro m c hm hc1 hc2
          cases m with
          | zero =>
            have hdc : d = c := by simpa using hm
            exact Or.inl (le_of_eq (congrArg MemoryBlock.size hdc))
          | succ m' =>
            have hm' : cs[m']? = some c := by simpa using hm
            have hnc := hnone c (List.getElem?_mem hm')
            exact Or.inl (le_of_not_lt (fun hlt => hnc ⟨hc1, hc2, hlt⟩))
        · intro m c hmk _ _ _
          exact absurd hmk (Nat.not_lt_zero m)
      · refine Or.inr ⟨k' + 1, kb, by simpa using hkb, by omega, hkb1, hkb2,
          lt_trans hkb3 hd.2.2, ?_, ?_⟩
        · intro m c hm hc1 hc2
          cases m with
          | zero =>
            have hdc : d = c := by simpa using hm
            exact Or.inl (le_of_lt (hdc ▸ hkb3))
          | succ m' =>
            have hm' : cs[m']? = some c := by simpa using hm
            rcases hall m' c hm' hc1 hc2 with hle | hge
            · exact Or.inl hle
            · exact Or.inl (le_trans (le_of_lt hkb3) hge)
        · intro m c hmk hm hc1 hc2
          cases m with
          | zero =>
            have hdc : d = c := by simpa using hm
            exact Or.inl (hdc ▸ hkb3)
          | succ m' =>
            have hm' : cs[m']? = some c := by simpa using hm
            rcases hearly m' c (by omega) hm' hc1 hc2 with hlt | hge
            · exact Or.inl hlt
            · exact Or.inl (lt_of_lt_of_le hkb3 hge)
    · rw [bestFitLoop, if_neg hd] at h
      rcases ih h with ⟨hacc, hnone⟩ | ⟨k', kb, hkb, hj, hkb1, hkb2, hkb3, hall, hearly⟩
      · refine Or.inl ⟨hacc, ?_⟩
        intro b hb
        rcases List.mem_cons.mp hb with hb | hb
        · exact hb ▸ hd
        · exact hnone b hb
      · refine Or.inr ⟨k' + 1, kb, by simpa using hkb, by omega, hkb1, hkb2, hkb3, ?_, ?_⟩
        · intro m c hm hc1 hc2
          cases m with
          | zero =>
            have hdc : d = c := by simpa using hm
            subst hdc
            exact Or.inr (le_of_not_lt (fun hlt => hd ⟨hc1, hc2, hlt⟩))
          | succ m' =>
            exact hall m' c (by simpa using hm) hc1 hc2
        · intro m c hmk hm hc1 hc2
          cases m with
          | zero =>
            have hdc : d = c := by simpa using hm
            subst hdc
            exact Or.inr (le_of_not_lt (fun hlt => hd ⟨hc1, hc2, hlt⟩))
          | succ m' =>
            exact hearly m' c (by omega) (by simpa using hm) hc1 hc2

theorem worstFitLoop_some {n : Int} :
    ∀ {l : List MemoryBlock} {i0 : Nat} {s : Int} {acc : Option Nat} {j : Nat},
      worstFitLoop n l i0 s acc = some j →
      (acc = some j ∧ ∀ b ∈ l, ¬(b.process = "" ∧ n ≤ b.size ∧ s < b.size)) ∨
      (∃ k kb, l[k]? = some kb ∧ j = i0 + k ∧
        kb.process = "" ∧ n ≤ kb.size ∧ s < kb.size ∧
        (∀ (m : Nat) (c : MemoryBlock), l[m]? = some c → c.process = "" → n ≤ c.size →
          c.size ≤ kb.size ∨ c.size ≤ s) ∧
        (∀ (m : Nat) (c : MemoryBlock), m < k → l[m]? = some c → c.process = "" →
          n ≤ c.size → c.size < kb.size ∨ c.size ≤ s)) := by
  intro l
  induction l with
  | nil => intro i0 s acc j h; exact Or.inl ⟨h, by simp⟩
  | cons d cs ih =>
    intro i0 s acc j h
    by_cases hd : d.process = "" ∧ n ≤ d.size ∧ s < d.size
    · rw [worstFitLoop, if_pos hd] at h
      rcases ih h with ⟨hacc, hnone⟩ | ⟨k', kb, hkb, hj, hkb1, hkb2, hkb3, hall, hearly⟩
      · have hj : j = i0 := by simpa using hacc.symm
        refine Or.inr ⟨0, d, by simp, by omega, hd.1, hd.2.1, hd.2.2, ?_, ?_⟩
        · intro m c hm hc1 hc2
          cases m with
          | zero =>
            have hdc : d = c := by simpa using hm
            exact Or.inl (le_of_eq (congrArg MemoryBlock.size hdc).symm)
          | succ m' =>
            have hm' : cs[m']? = some c := by simpa using hm
            have hnc := hnone c (List.getElem?_mem hm')
            exact Or.inl (le_of_not_lt (fun hlt => hnc ⟨hc1, hc2, hlt⟩))
        · intro m c hmk _ _ _
          exact absurd hmk (Nat.not_lt_zero m)
      · refine Or.inr ⟨k' + 1, kb, by simpa using hkb, by omega, hkb1, hkb2,
          lt_trans hd.2.2 hkb3, ?_, ?_⟩
        · intro m c hm hc1 hc2
          cases m with
          | zero =>
            have hdc : d = c := by simpa using hm
            exact Or.inl (le_of_lt (hdc ▸ hkb3))
          | succ m' =>
            have hm' : cs[m']? = some c := by simpa using hm
            rcases hall m' c hm' hc1 hc2 with hle | hge
            · exact Or.inl hle
            · exact Or.inl (le_trans hge (le_of_lt hkb3))
        · intro m c hmk hm hc1 hc2
          cases m with
          | zero =>
            have hdc : d = c := by simpa using hm
            exact Or.inl (hdc ▸ hkb3)
          | succ m' =>
            have hm' : cs[m']? = some c := by simpa using hm
            rcases hearly m' c (by omega) hm' hc1 hc2 with hlt | hge
            · exact Or.inl hlt
            · exact Or.inl (lt_of_le_of_lt hge hkb3)
    · rw [worstFitLoop, if_neg hd] at h
      rcases ih h with ⟨hacc, hnone⟩ | ⟨k', kb, hkb, hj, hkb1, hkb2, hkb3, hall, hearly⟩
      · refine Or.inl ⟨hacc, ?_⟩
        intro b hb
        rcases List.mem_cons.mp hb with hb | hb
        · exact hb ▸ hd
        · exact hnone b hb
      · refine Or.inr ⟨k' + 1, kb, by simpa using hkb, by omega, hkb1, hkb2, hkb3, ?_, ?_⟩
        · intro m c hm hc1 hc2
          cases m with
          | zero =>
            have hdc : d = c := by simpa using hm
            subst hdc
            exact Or.inr (le_of_not_lt (fun hlt => hd ⟨hc1, hc2, hlt⟩))
          | succ m' =>
            exact hall m' c (by simpa using hm) hc1 hc2
        · intro m c hmk hm hc1 hc2
          cases m with
          | zero =>
            have hdc : d = c := by simpa using hm
            subst hdc
            exact Or.inr (le_of_not_lt (fun hlt => hd ⟨hc1, hc2, hlt⟩))
          | succ m' =>
            exact hearly m' c (by omega) (by simpa using hm) hc1 hc2

theorem covers_start_mono {pos cap : Int} {l : List MemoryBlock} (hc : covers pos cap l)
    {i j : Nat} {bi bj : MemoryBlock} (hij : i ≤ j)
    (hi : l[i]? = some bi) (hj : l[j]? = some bj) : bi.start ≤ bj.start := by
  rcases Nat.lt_or_ge i j with hlt | hge
  · have hp := covers_pairwise_lt hc
    rw [List.pairwise_iff_getElem] at hp
    rcases List.getElem?_eq_some_iff.mp hi with ⟨hi', rfl⟩
    rcases List.getElem?_eq_some_iff.mp hj with ⟨hj', rfl⟩
    have hlt' := hp i j hi' hj' hlt
    unfold startLT at hlt'
    exact le_of_lt hlt'
  · have hij' : i = j := le_antisymm hij hge
    subst hij'
    rw [hi] at hj
    exact le_of_eq (congrArg MemoryBlock.start (Option.some.inj hj))

/-! ## Facts about merging -/

theorem mergeGo_covers {cap : Int} (l : List MemoryBlock) :
    ∀ pos : Int, covers pos cap l → covers pos cap (mergeGo l) := by
  induction l using mergeGo.induct with
  | case1 => intro pos h; simpa [mergeGo] using h
  | case2 b => intro pos h; simpa [mergeGo] using h
  | case3 b c rest h ih =>
    intro pos hc
    simp only [covers] at hc
    rw [mergeGo, if_pos h]
    apply ih
    refine ⟨by dsimp only; omega, by dsimp only; omega, ?_⟩
    show covers (c.«end» + 1) cap rest
    exact hc.2.2.2.2
  | case4 b c rest h ih =>
    intro pos hc
    simp only [covers] at hc
    rw [mergeGo, if_neg h]
    simp only [covers]
    exact ⟨hc.1, hc.2.1, ih _ ⟨hc.2.2.1, hc.2.2.2.1, hc.2.2.2.2⟩⟩

theorem mergeGo_head (l : List MemoryBlock) :
    ∀ b rest, l = b :: rest →
      ∃ b' l', mergeGo l = b' :: l' ∧ b'.process = b.process := by
  induction l using mergeGo.induct with
  | case1 => intro b rest h; exact absurd h (by simp)
  | case2 d =>
    intro b rest h
    refine ⟨d, [], by simp [mergeGo], ?_⟩
    rw [(List.cons.inj h).1]
  | case3 d c rest h ih =>
    intro b r hl
    rw [mergeGo, if_pos h]
    rcases ih { d with «end» := c.«end» } rest rfl with ⟨b', l', heq, hproc⟩
    refine ⟨b', l', heq, ?_⟩
    rw [hproc]
    show d.process = b.process
    rw [(List.cons.inj hl).1]
  | case4 d c rest h ih =>
    intro b r hl
    rw [mergeGo, if_neg h]
    refine ⟨d, mergeGo (c :: rest), rfl, ?_⟩
    rw [(List.cons.inj hl).1]

theorem mergeGo_noAdjFree (l : List MemoryBlock) : noAdjFree (mergeGo l) := by
  induction l using mergeGo.induct with
  | case1 => simp [mergeGo, noAdjFree]
  | case2 b => simp [mergeGo, noAdjFree]
  | case3 b c rest h ih =>
    rw [mergeGo, if_pos h]
    exact ih
  | case4 b c rest h ih =>
    rw [mergeGo, if_neg h]
    unfold noAdjFree at ih ⊢
    refine List.chain'_cons'.mpr ⟨?_, ih⟩
    intro y hy
    rcases mergeGo_head (c :: rest) c rest rfl with ⟨c', l', heq, hproc⟩
    rw [heq] at hy
    simp only [List.head?_cons, Option.mem_def, Option.some.injEq] at hy
    subst hy
    unfold freeOK
    intro hcon
    exact h ⟨hcon.1, hproc ▸ hcon.2⟩

theorem setFreeAt_covers {pos cap : Int} {bs : List MemoryBlock}
    (hc : covers pos cap bs) (i : Nat) : covers pos cap (setFreeAt bs i) := by
  cases hg : bs[i]? with
  | none =>
    unfold setFreeAt
    rw [hg]
    exact hc
  | some b =>
    rcases List.getElem?_eq_some_iff.mp hg with ⟨hi, hb⟩
    have hsf : setFreeAt bs i = bs.set i { b with process := "" } := by
      unfold setFreeAt
      rw [hg]
    rw [hsf, List.set_eq_take_cons_drop _ hi]
    have hdecomp : bs = bs.take i ++ bs.get ⟨i, hi⟩ :: bs.drop (i + 1) := eq_take_get_drop hi
    rw [hdecomp] at hc
    rcases covers_append.mp hc with ⟨mid, h1, h2⟩
    simp only [covers] at h2
    refine covers_append.mpr ⟨mid, h1, ?_⟩
    have hbb : bs.get ⟨i, hi⟩ = b := by rw [List.get_eq_getElem, hb]
    rw [hbb] at h2
    exact ⟨h2.1, h2.2.1, h2.2.2⟩

theorem releaseLoop_inv {cap : Int} (p : String) (i : Nat) (found : Bool)
    (bs : List MemoryBlock) (hc : covers 0 cap bs) (hadj : noAdjFree bs) :
    covers 0 cap (releaseLoop p i found bs).2 ∧
      noAdjFree (releaseLoop p i found bs).2 := by
  refine releaseLoop.induct p
    (fun i found bs => covers 0 cap bs → noAdjFree bs →
      covers 0 cap (releaseLoop p i found bs).2 ∧ noAdjFree (releaseLoop p i found bs).2)
    ?_ ?_ ?_ i found bs hc hadj
  · intro i found bs h hcond ih hc2 hadj2
    rw [releaseLoop, dif_pos h, if_pos hcond]
    apply ih
    · unfold mergeAdjacentFreeBlocks
      have hcset : covers 0 cap (setFreeAt bs i) := setFreeAt_covers hc2 i
      rw [sortBlocks_eq_self (covers_pairwise_lt hcset)]
      exact mergeGo_covers _ _ hcset
    · exact mergeGo_noAdjFree _
  · intro i found bs h hcond ih hc2 hadj2
    rw [releaseLoop, dif_pos h, if_neg hcond]
    exact ih hc2 hadj2
  · intro i found bs h hc2 hadj2
    rw [releaseLoop, dif_neg h]
    exact ⟨hc2, hadj2⟩

/-! ## Facts about compaction -/

theorem sizeTotal_cons (b : MemoryBlock) (l : List MemoryBlock) :
    sizeTotal (b :: l) = b.size + sizeTotal l := by
  unfold sizeTotal
  simp

theorem compactGo_eq :
    ∀ (l : List MemoryBlock) (next : Int),
      compactGo l next =
        (packList next (l.filter (fun b => !(b.process == ""))),
          next + sizeTotal (l.filter (fun b => !(b.process == "")))) := by
  intro l
  induction l with
  | nil => intro next; simp [compactGo, packList, sizeTotal]
  | cons b bs ih =>
    intro next
    by_cases hb : b.process = ""
    · rw [compactGo, if_pos hb]
      have hpred : (fun c => !(c.process == "")) b = false := by
        simp [hb]
      rw [List.filter_cons_of_neg (by simp [hb])]
      exact ih next
    · rw [compactGo, if_neg hb]
      rw [List.filter_cons_of_pos (by simp [hb])]
      rw [ih (next + b.size)]
      rw [packList, sizeTotal_cons]
      ring_nf

theorem packList_covers :
    ∀ (l : List MemoryBlock) (pos : Int), (∀ b ∈ l, 0 < b.size) →
      covers pos (pos + sizeTotal l) (packList pos l) := by
  intro l
  induction l with
  | nil =>
    intro pos _
    show (pos : Int) = pos + sizeTotal []
    simp [sizeTotal]
  | cons b bs ih =>
    intro pos h
    have hb : 0 < b.size := h b (List.mem_cons_self b bs)
    rw [packList]
    refine ⟨rfl, by dsimp only; omega, ?_⟩
    show covers (pos + b.size - 1 + 1) (pos + sizeTotal (b :: bs)) (packList (pos + b.size) bs)
    have h1 : pos + b.size - 1 + 1 = pos + b.size := by omega
    have h2 : pos + sizeTotal (b :: bs) = pos + b.size + sizeTotal bs := by
      rw [sizeTotal_cons]
      ring
    rw [h1, h2]
    exact ih (pos + b.size) (fun c hc => h c (List.mem_cons_of_mem b hc))

theorem packList_nonfree :
    ∀ {l : List MemoryBlock} {pos : Int}, (∀ b ∈ l, ¬b.process = "") →
      ∀ b' ∈ packList pos l, ¬b'.process = "" := by
  intro l
  induction l with
  | nil => intro pos _ b' hb'; exact absurd hb' (List.not_mem_nil b')
  | cons b bs ih =>
    intro pos h b' hb'
    rw [packList] at hb'
    rcases List.mem_cons.mp hb' with hb' | hb'
    · subst hb'
      exact h b (List.mem_cons_self b bs)
    · exact ih (fun c hc => h c (List.mem_cons_of_mem b hc)) b' hb'

theorem noAdjFree_allAllocated :
    ∀ {l : List MemoryBlock}, (∀ b ∈ l, ¬b.process = "") → noAdjFree l := by
  intro l
  induction l with
  | nil => intro _; exact List.chain'_nil
  | cons b bs ih =>
    intro h
    unfold noAdjFree at ih ⊢
    refine List.chain'_cons'.mpr ⟨?_, ih (fun c hc => h c (List.mem_cons_of_mem b hc))⟩
    intro y _
    unfold freeOK
    intro hcon
    exact h b (List.mem_cons_self b bs) hcon.1

theorem noAdjFree_append_single {l : List MemoryBlock}
    (h : ∀ b ∈ l, ¬b.process = "") (f : MemoryBlock) : noAdjFree (l ++ [f]) := by
  unfold noAdjFree
  refine List.chain'_append.mpr ⟨noAdjFree_allAllocated h, List.chain'_singleton f, ?_⟩
  intro x hx y _
  unfold freeOK
  intro hcon
  exact h x (List.mem_of_getLast?_eq_some hx) hcon.1

/-! ## Preservation of the partition invariant -/

theorem alloc_result_inv {cap n : Int} {p : String} {bs : List MemoryBlock} {i : Nat}
    (hc : covers 0 cap bs) (hadj : noAdjFree bs) (hn : 0 < n) (hp : p ≠ "")
    (hi : i < bs.length) (hsize : n ≤ (bs.get ⟨i, hi⟩).size) :
    covers 0 cap (allocAt p n bs i) ∧ noAdjFree (allocAt p n bs i) := by
  rcases allocAt_splice p hc hi hn hsize with ⟨heq, hcov⟩
  exact ⟨heq ▸ hcov, allocAt_noAdjFree hc hi hn hsize hp hadj⟩

theorem processRequest_inv {a : MemoryAllocator} {cap : Int} {p : String} {n : Int}
    {c : Char} (hm : a.maxMemory = cap) (hc : covers 0 cap a.blocks)
    (hadj : noAdjFree a.blocks) (hn : 0 < n) (hp : p ≠ "") :
    (a.processRequest p n c).2.maxMemory = cap ∧
      covers 0 cap (a.processRequest p n c).2.blocks ∧
      noAdjFree (a.processRequest p n c).2.blocks := by
  unfold MemoryAllocator.processRequest
  by_cases hF : c = 'F'
  · rw [if_pos hF]
    unfold MemoryAllocator.allocateFirstFit
    cases hff : findFirstFit n a.blocks with
    | none => exact ⟨hm, hc, hadj⟩
    | some i =>
      rcases findFirstFit_some hff with ⟨b, hb, _, hb2, _⟩
      rcases List.getElem?_eq_some_iff.mp hb with ⟨hi, hbi⟩
      have hsize : n ≤ (a.blocks.get ⟨i, hi⟩).size := by
        rw [List.get_eq_getElem, hbi]
        exact hb2
      have h2 := alloc_result_inv hc hadj hn hp hi hsize
      exact ⟨hm, h2.1, h2.2⟩
  · rw [if_neg hF]
    by_cases hB : c = 'B'
    · rw [if_pos hB]
      unfold MemoryAllocator.allocateBestFit
      cases hbf : bestFitLoop n a.blocks 0 (a.maxMemory + 1) none with
      | none => exact ⟨hm, hc, hadj⟩
      | some i =>
        rcases bestFitLoop_some hbf with ⟨habs, _⟩ | ⟨k, kb, hkb, hik, _, hkb2, _, _, _⟩
        · exact absurd habs (by simp)
        · have hik' : i = k := by omega
          subst hik'
          rcases List.getElem?_eq_some_iff.mp hkb with ⟨hi, hbi⟩
          have hsize : n ≤ (a.blocks.get ⟨i, hi⟩).size := by
            rw [List.get_eq_getElem, hbi]
            exact hkb2
          have h2 := alloc_result_inv hc hadj hn hp hi hsize
          exact ⟨hm, h2.1, h2.2⟩
    · rw [if_neg hB]
      by_cases hW : c = 'W'
      · rw [if_pos hW]
        unfold MemoryAllocator.allocateWorstFit
        cases hwf : worstFitLoop n a.blocks 0 (-1) none with
        | none => exact ⟨hm, hc, hadj⟩
        | some i =>
          rcases worstFitLoop_some hwf with ⟨habs, _⟩ | ⟨k, kb, hkb, hik, _, hkb2, _, _, _⟩
          · exact absurd habs (by simp)
          · have hik' : i = k := by omega
            subst hik'
            rcases List.getElem?_eq_some_iff.mp hkb with ⟨hi, hbi⟩
            have hsize : n ≤ (a.blocks.get ⟨i, hi⟩).size := by
              rw [List.get_eq_getElem, hbi]
              exact hkb2
            have h2 := alloc_result_inv hc hadj hn hp hi hsize
            exact ⟨hm, h2.1, h2.2⟩
      · rw [if_neg hW]
        exact ⟨hm, hc, hadj⟩

theorem release_inv {a : MemoryAllocator} {cap : Int} {p : String}
    (hm : a.maxMemory = cap) (hc : covers 0 cap a.blocks) (hadj : noAdjFree a.blocks) :
    (a.release p).2.maxMemory = cap ∧
      covers 0 cap (a.release p).2.blocks ∧ noAdjFree (a.release p).2.blocks := by
  have h := releaseLoop_inv p 0 false a.blocks hc hadj
  exact ⟨hm, h.1, h.2⟩

theorem compact_inv {a : MemoryAllocator} {cap : Int}
    (hm : a.maxMemory = cap) (hc : covers 0 cap a.blocks) :
    a.compact.maxMemory = cap ∧
      covers 0 cap a.compact.blocks ∧ noAdjFree a.compact.blocks := by
  unfold MemoryAllocator.compact
  rw [sortBlocks_eq_self (covers_pairwise_lt hc), compactGo_eq]
  have hpos : ∀ b ∈ a.blocks.filter (fun b => !(b.process == "")), 0 < b.size :=
    fun b hb => covers_size_pos hc b (List.mem_of_mem_filter hb)
  have hnonfree : ∀ b ∈ a.blocks.filter (fun b => !(b.process == "")), ¬b.process = "" := by
    intro b hb
    have := (List.mem_filter.mp hb).2
    simpa using this
  have hcov0 := packList_covers (a.blocks.filter (fun b => !(b.process == ""))) 0 hpos
  have htot : sizeTotal (a.blocks.filter (fun b => !(b.process == ""))) ≤ cap := by
    have h1 := @sizeTotal_filter_le (fun b => !(b.process == "")) a.blocks
      (fun b hb => le_of_lt (covers_size_pos hc b hb))
    have h2 := covers_sizeTotal hc
    omega
  have hpacknf := @packList_nonfree _ 0 hnonfree
  by_cases hlt : (0 : Int) + sizeTotal (a.blocks.filter (fun b => !(b.process == ""))) <
      a.maxMemory
  · refine ⟨hm, ?_, ?_⟩
    · show covers 0 cap
        (if (0 : Int) + sizeTotal _ < a.maxMemory then _ ++ [⟨_, a.maxMemory - 1, ""⟩] else _)
      rw [if_pos hlt]
      refine covers_append.mpr
        ⟨0 + sizeTotal (a.blocks.filter (fun b => !(b.process == ""))), hcov0, ?_⟩
      refine ⟨rfl, by dsimp only; omega, ?_⟩
      show a.maxMemory - 1 + 1 = cap
      omega
    · show noAdjFree
        (if (0 : Int) + sizeTotal _ < a.maxMemory then _ ++ [⟨_, a.maxMemory - 1, ""⟩] else _)
      rw [if_pos hlt]
      exact noAdjFree_append_single hpacknf _
  · refine ⟨hm, ?_, ?_⟩
    · show covers 0 cap
        (if (0 : Int) + sizeTotal _ < a.maxMemory then _ ++ [⟨_, a.maxMemory - 1, ""⟩] else _)
      rw [if_neg hlt]
      have hcapeq : (0 : Int) + sizeTotal (a.blocks.filter (fun b => !(b.process == ""))) =
          cap := by omega
      rw [← hcapeq]
      exact hcov0
    · show noAdjFree
        (if (0 : Int) + sizeTotal _ < a.maxMemory then _ ++ [⟨_, a.maxMemory - 1, ""⟩] else _)
      rw [if_neg hlt]
      exact noAdjFree_allAllocated hpacknf

theorem reachable_inv {cap : Int} {a : MemoryAllocator} (h : Reachable cap a) :
    a.maxMemory = cap ∧ covers 0 cap a.blocks ∧ noAdjFree a.blocks := by
  induction h with
  | init hcap =>
    refine ⟨rfl, ⟨rfl, by dsimp only; omega, ?_⟩, List.chain'_singleton _⟩
    show cap - 1 + 1 = cap
    omega
  | alloc hr hn hp hcl ih =>
    exact processRequest_inv ih.1 ih.2.1 ih.2.2 hn hp
  | rel p hr ih =>
    exact release_inv ih.1 ih.2.1 ih.2.2
  | comp hr ih =>
    exact (compact_inv ih.1 ih.2.1)

/-! ## Remaining helper lemmas -/

theorem findFirstFit_not_found {n : Int} :
    ∀ {l : List MemoryBlock}, (∀ b ∈ l, ¬(b.process = "" ∧ n ≤ b.size)) →
      findFirstFit n l = none := by
  intro l
  induction l with
  | nil => intro _; rfl
  | cons c cs ih =>
    intro h
    rw [findFirstFit, if_neg (h c (List.mem_cons_self c cs))]
    rw [ih (fun b hb => h b (List.mem_cons_of_mem c hb))]
    rfl

theorem allocAt_mem_iff {bs : List MemoryBlock} {i : Nat} {b : MemoryBlock}
    (hb : bs[i]? = some b) (p : String) (n : Int) (x : MemoryBlock) :
    x ∈ allocAt p n bs i ↔
      x ∈ (if n < b.size then bs.set i { b with start := b.start + n - 1 + 1 }
           else bs.eraseIdx i) ++ [MemoryBlock.mk b.start (b.start + n - 1) p] := by
  unfold allocAt
  rw [hb]
  exact (sortBlocks_perm _).mem_iff

theorem allocAt_mem_new {bs : List MemoryBlock} {i : Nat} {b : MemoryBlock}
    (hb : bs[i]? = some b) (p : String) (n : Int) :
    MemoryBlock.mk b.start (b.start + n - 1) p ∈ allocAt p n bs i := by
  rw [allocAt_mem_iff hb p n]
  simp

/-! ## The claims -/

/-- C2 counterexample: the claim says a lowercase strategy letter behaves like
its uppercase counterpart, but on the fresh allocator of capacity 100 the
request `(A, 10, f)` is rejected while `(A, 10, F)` succeeds: the dispatch is
case-sensitive. -/
theorem processRequest_lowercase_differs :
    ((MemoryAllocator.init 100).processRequest "A" 10 'f').1 = false ∧
    ((MemoryAllocator.init 100).processRequest "A" 10 'F').1 = true := by
  decide

/-- C2 (amended): the strategy letter is case-sensitive.  Exactly the uppercase
characters `F`, `B`, `W` dispatch to first-, best-, and worst-fit; every other
character — lowercase `f`, `b`, `w` included — is rejected with a failure
result and the allocator is left unchanged. -/
theorem processRequest_dispatch (a : MemoryAllocator) (p : String) (n : Int) (c : Char) :
    a.processRequest p n 'F' = a.allocateFirstFit p n ∧
    a.processRequest p n 'B' = a.allocateBestFit p n ∧
    a.processRequest p n 'W' = a.allocateWorstFit p n ∧
    (¬(c = 'F' ∨ c = 'B' ∨ c = 'W') → a.processRequest p n c = (false, a)) := by
  refine ⟨?_, ?_, ?_, ?_⟩
  · rw [MemoryAllocator.processRequest, if_pos rfl]
  · rw [MemoryAllocator.processRequest, if_neg (by decide), if_pos rfl]
  · rw [MemoryAllocator.processRequest, if_neg (by decide), if_neg (by decide), if_pos rfl]
  · intro h
    push_neg at h
    rw [MemoryAllocator.processRequest, if_neg h.1, if_neg h.2.1, if_neg h.2.2]

/-- Witness for C2 (amended) at the concrete input `f` on a fresh allocator. -/
theorem processRequest_dispatch_witness :
    ((MemoryAllocator.init 100).processRequest "A" 10 'f') =
      (false, MemoryAllocator.init 100) :=
  (processRequest_dispatch (MemoryAllocator.init 100) "A" 10 'f').2.2.2 (by decide)

/-- C9: allocation failure is atomic.  For every state and any of the three
strategies, when no free block has size at least the (positive) requested
size, `processRequest` returns failure and leaves the partition exactly
unchanged. -/
theorem allocate_failure_atomic (a : MemoryAllocator) (p : String) (n : Int) (c : Char)
    (_hn : 0 < n) (hc : c = 'F' ∨ c = 'B' ∨ c = 'W')
    (hnofit : ∀ b ∈ a.blocks, b.process = "" → b.size < n) :
    a.processRequest p n c = (false, a) := by
  have hnone : ∀ b ∈ a.blocks, ¬(b.process = "" ∧ n ≤ b.size) := by
    intro b hb hcon
    exact absurd (hnofit b hb hcon.1) (not_lt.mpr hcon.2)
  rcases hc with rfl | rfl | rfl
  · rw [MemoryAllocator.processRequest, if_pos rfl]
    unfold MemoryAllocator.allocateFirstFit
    rw [findFirstFit_not_found hnone]
  · rw [MemoryAllocator.processRequest, if_neg (by decide), if_pos rfl]
    unfold MemoryAllocator.allocateBestFit
    rw [bestFitLoop_not_found hnone]
  · rw [MemoryAllocator.processRequest, if_neg (by decide), if_neg (by decide), if_pos rfl]
    unfold MemoryAllocator.allocateWorstFit
    rw [worstFitLoop_not_found hnone]

/-- Witness for C9: a fully allocated memory of 10 cells rejects a first-fit
request of size 5 and is unchanged. -/
theorem allocate_failure_atomic_witness :
    MemoryAllocator.processRequest "B" 5 'F' ⟨10, [⟨0, 9, "A"⟩]⟩ =
      (false, (⟨10, [⟨0, 9, "A"⟩]⟩ : MemoryAllocator)) :=
  allocate_failure_atomic ⟨10, [⟨0, 9, "A"⟩]⟩ "B" 5 'F' (by decide) (by decide) (by decide)

/-- C3: on an invariant-satisfying state, a successful best-fit allocation of a
positive size places the new block at the start address of the free block whose
size is smallest among all sufficiently large free blocks, taking the lowest
start address among equally small candidates. -/
theorem allocateBestFit_chooses_smallest (a : MemoryAllocator) (p : String) (n : Int)
    (hinv : covers 0 a.maxMemory a.blocks) (_hn : 0 < n)
    (hsucc : (a.allocateBestFit p n).1 = true) :
    ∃ (i : Nat) (b : MemoryBlock), a.blocks[i]? = some b ∧ b.process = "" ∧ n ≤ b.size ∧
      (∀ (j : Nat) (c : MemoryBlock), a.blocks[j]? = some c → c.process = "" →
        n ≤ c.size →
        b.size < c.size ∨ (b.size = c.size ∧ b.start ≤ c.start)) ∧
      MemoryBlock.mk b.start (b.start + n - 1) p ∈ (a.allocateBestFit p n).2.blocks := by
  unfold MemoryAllocator.allocateBestFit at hsucc ⊢
  cases hbf : bestFitLoop n a.blocks 0 (a.maxMemory + 1) none with
  | none =>
    rw [hbf] at hsucc
    exact absurd hsucc (by simp)
  | some k =>
    rcases bestFitLoop_some hbf with ⟨habs, _⟩ | ⟨k', kb, hkb, hik, hkb1, hkb2, _, hall, hearly⟩
    · exact absurd habs (by simp)
    · obtain rfl : k = k' := by omega
      refine ⟨k, kb, hkb, hkb1, hkb2, ?_, ?_⟩
      · intro j c hcj hc1 hc2
        have hcsize : c.size ≤ a.maxMemory := by
          have := covers_size_le hinv c (List.getElem?_mem hcj)
          omega
        have hle : kb.size ≤ c.size := by
          rcases hall j c hcj hc1 hc2 with h1 | h1
          · exact h1
          · omega
        rcases lt_or_eq_of_le hle with hlt | heq
        · exact Or.inl hlt
        · refine Or.inr ⟨heq, ?_⟩
          have hkj : k ≤ j := by
            by_contra hcontra
            push_neg at hcontra
            rcases hearly j c hcontra hcj hc1 hc2 with h2 | h2
            · omega
            · omega
          exact covers_start_mono hinv hkj hkb hcj
      · exact allocAt_mem_new hkb p n

/-- Witness for C3: capacity 100 with free blocks of sizes 30 (at 0) and 50
(at 50); best fit for size 10 must take the size-30 block at address 0. -/
theorem allocateBestFit_chooses_smallest_witness :
    ∃ (i : Nat) (b : MemoryBlock), (⟨100, [⟨0, 29, ""⟩, ⟨30, 49, "A"⟩, ⟨50, 99, ""⟩]⟩ :
        MemoryAllocator).blocks[i]? = some b ∧ b.process = "" ∧ (10 : Int) ≤ b.size ∧
      (∀ (j : Nat) (c : MemoryBlock),
        (⟨100, [⟨0, 29, ""⟩, ⟨30, 49, "A"⟩, ⟨50, 99, ""⟩]⟩ :
          MemoryAllocator).blocks[j]? = some c → c.process = "" → (10 : Int) ≤ c.size →
        b.size < c.size ∨ (b.size = c.size ∧ b.start ≤ c.start)) ∧
      MemoryBlock.mk b.start (b.start + 10 - 1) "C" ∈
        (MemoryAllocator.allocateBestFit "C" 10
          ⟨100, [⟨0, 29, ""⟩, ⟨30, 49, "A"⟩, ⟨50, 99, ""⟩]⟩).2.blocks :=
  allocateBestFit_chooses_smallest ⟨100, [⟨0, 29, ""⟩, ⟨30, 49, "A"⟩, ⟨50, 99, ""⟩]⟩
    "C" 10 (by decide) (by decide) (by decide)

/-- C4: on an invariant-satisfying state, a successful worst-fit allocation of a
positive size places the new block at the start address of the free block whose
size is largest among all sufficiently large free blocks, taking the lowest
start address among equally large candidates. -/
theorem allocateWorstFit_chooses_largest (a : MemoryAllocator) (p : String) (n : Int)
    (hinv : covers 0 a.maxMemory a.blocks) (hn : 0 < n)
    (hsucc : (a.allocateWorstFit p n).1 = true) :
    ∃ (i : Nat) (b : MemoryBlock), a.blocks[i]? = some b ∧ b.process = "" ∧ n ≤ b.size ∧
      (∀ (j : Nat) (c : MemoryBlock), a.blocks[j]? = some c → c.process = "" →
        n ≤ c.size →
        c.size < b.size ∨ (c.size = b.size ∧ b.start ≤ c.start)) ∧
      MemoryBlock.mk b.start (b.start + n - 1) p ∈ (a.allocateWorstFit p n).2.blocks := by
  unfold MemoryAllocator.allocateWorstFit at hsucc ⊢
  cases hwf : worstFitLoop n a.blocks 0 (-1) none with
  | none =>
    rw [hwf] at hsucc
    exact absurd hsucc (by simp)
  | some k =>
    rcases worstFitLoop_some hwf with ⟨habs, _⟩ | ⟨k', kb, hkb, hik, hkb1, hkb2, _, hall, hearly⟩
    · exact absurd habs (by simp)
    · obtain rfl : k = k' := by omega
      refine ⟨k, kb, hkb, hkb1, hkb2, ?_, ?_⟩
      · intro j c hcj hc1 hc2
        have hle : c.size ≤ kb.size := by
          rcases hall j c hcj hc1 hc2 with h1 | h1
          · exact h1
          · omega
        rcases lt_or_eq_of_le hle with hlt | heq
        · exact Or.inl hlt
        · refine Or.inr ⟨heq, ?_⟩
          have hkj : k ≤ j := by
            by_contra hcontra
            push_neg at hcontra
            rcases hearly j c hcontra hcj hc1 hc2 with h2 | h2
            · omega
            · omega
          exact covers_start_mono hinv hkj hkb hcj
      · exact allocAt_mem_new hkb p n

/-- Witness for C4: capacity 100 with free blocks of sizes 30 (at 0) and 50
(at 50); worst fit for size 10 must take the size-50 block at address 50. -/
theorem allocateWorstFit_chooses_largest_witness :
    ∃ (i : Nat) (b : MemoryBlock), (⟨100, [⟨0, 29, ""⟩, ⟨30, 49, "A"⟩, ⟨50, 99, ""⟩]⟩ :
        MemoryAllocator).blocks[i]? = some b ∧ b.process = "" ∧ (10 : Int) ≤ b.size ∧
      (∀ (j : Nat) (c : MemoryBlock),
        (⟨100, [⟨0, 29, ""⟩, ⟨30, 49, "A"⟩, ⟨50, 99, ""⟩]⟩ :
          MemoryAllocator).blocks[j]? = some c → c.process = "" → (10 : Int) ≤ c.size →
        c.size < b.size ∨ (c.size = b.size ∧ b.start ≤ c.start)) ∧
      MemoryBlock.mk b.start (b.start + 10 - 1) "D" ∈
        (MemoryAllocator.allocateWorstFit "D" 10
          ⟨100, [⟨0, 29, ""⟩, ⟨30, 49, "A"⟩, ⟨50, 99, ""⟩]⟩).2.blocks :=
  allocateWorstFit_chooses_largest ⟨100, [⟨0, 29, ""⟩, ⟨30, 49, "A"⟩, ⟨50, 99, ""⟩]⟩
    "D" 10 (by decide) (by decide) (by decide)

/-- C5: on an invariant-satisfying state, a successful first-fit allocation of a
positive size selects the lowest-addressed free block that is large enough and
splits it in place: the new allocated block `[start, start+size-1]` labelled
with the owner, followed (only when the free block was strictly larger) by the
free remainder `[start+size, old_end]`; the partition stays sorted by ascending
start address. -/
theorem allocateFirstFit_spec (a : MemoryAllocator) (p : String) (n : Int)
    (hinv : covers 0 a.maxMemory a.blocks) (hn : 0 < n)
    (hsucc : (a.allocateFirstFit p n).1 = true) :
    ∃ (i : Nat) (b : MemoryBlock), a.blocks[i]? = some b ∧ b.process = "" ∧ n ≤ b.size ∧
      (∀ (j : Nat) (c : MemoryBlock), a.blocks[j]? = some c → c.process = "" →
        n ≤ c.size → b.start ≤ c.start) ∧
      (a.allocateFirstFit p n).2.blocks =
        a.blocks.take i ++ MemoryBlock.mk b.start (b.start + n - 1) p ::
          (if n < b.size then
            MemoryBlock.mk (b.start + n) b.«end» "" :: a.blocks.drop (i + 1)
          else a.blocks.drop (i + 1)) ∧
      (a.allocateFirstFit p n).2.blocks.Pairwise startLT := by
  unfold MemoryAllocator.allocateFirstFit at hsucc ⊢
  cases hff : findFirstFit n a.blocks with
  | none =>
    rw [hff] at hsucc
    exact absurd hsucc (by simp)
  | some i =>
    rcases findFirstFit_some hff with ⟨b, hb, hb1, hb2, hprev⟩
    rcases List.getElem?_eq_some_iff.mp hb with ⟨hi, hbi⟩
    have hgb : a.blocks.get ⟨i, hi⟩ = b := by rw [List.get_eq_getElem, hbi]
    have hsize : n ≤ (a.blocks.get ⟨i, hi⟩).size := by
      rw [hgb]
      exact hb2
    rcases allocAt_splice p hinv hi hn hsize with ⟨heq, hcov⟩
    rw [hgb] at heq hcov
    refine ⟨i, b, hb, hb1, hb2, ?_, ?_, ?_⟩
    · intro j c hcj hc1 hc2
      have hij : i ≤ j := by
        by_contra hcon
        push_neg at hcon
        exact hprev j c hcon hcj ⟨hc1, hc2⟩
      exact covers_start_mono hinv hij hb hcj
    · show allocAt p n a.blocks i = _
      rw [heq]
      simp only [hb1]
    · show (allocAt p n a.blocks i).Pairwise startLT
      rw [heq]
      exact covers_pairwise_lt hcov

/-- Witness for C5: first fit for size 10 on free blocks `[0,29]` and `[50,99]`
takes the lowest-addressed one and splits it into `C [0,9]` and free `[10,29]`. -/
theorem allocateFirstFit_spec_witness :
    ∃ (i : Nat) (b : MemoryBlock),
      (⟨100, [⟨0, 29, ""⟩, ⟨30, 49, "A"⟩, ⟨50, 99, ""⟩]⟩ :
        MemoryAllocator).blocks[i]? = some b ∧ b.process = "" ∧ (10 : Int) ≤ b.size ∧
      (∀ (j : Nat) (c : MemoryBlock),
        (⟨100, [⟨0, 29, ""⟩, ⟨30, 49, "A"⟩, ⟨50, 99, ""⟩]⟩ :
          MemoryAllocator).blocks[j]? = some c → c.process = "" → (10 : Int) ≤ c.size →
        b.start ≤ c.start) ∧
      (MemoryAllocator.allocateFirstFit "C" 10
          ⟨100, [⟨0, 29, ""⟩, ⟨30, 49, "A"⟩, ⟨50, 99, ""⟩]⟩).2.blocks =
        (⟨100, [⟨0, 29, ""⟩, ⟨30, 49, "A"⟩, ⟨50, 99, ""⟩]⟩ :
          MemoryAllocator).blocks.take i ++
          MemoryBlock.mk b.start (b.start + 10 - 1) "C" ::
            (if (10 : Int) < b.size then
              MemoryBlock.mk (b.start + 10) b.«end» "" ::
                (⟨100, [⟨0, 29, ""⟩, ⟨30, 49, "A"⟩, ⟨50, 99, ""⟩]⟩ :
                  MemoryAllocator).blocks.drop (i + 1)
            else (⟨100, [⟨0, 29, ""⟩, ⟨30, 49, "A"⟩, ⟨50, 99, ""⟩]⟩ :
              MemoryAllocator).blocks.drop (i + 1)) ∧
      (MemoryAllocator.allocateFirstFit "C" 10
          ⟨100, [⟨0, 29, ""⟩, ⟨30, 49, "A"⟩, ⟨50, 99, ""⟩]⟩).2.blocks.Pairwise startLT :=
  allocateFirstFit_spec ⟨100, [⟨0, 29, ""⟩, ⟨30, 49, "A"⟩, ⟨50, 99, ""⟩]⟩
    "C" 10 (by decide) (by decide) (by decide)

/-- C6: on an invariant-satisfying state, `compact` rewrites the partition to
the allocated blocks packed contiguously from address 0 — `packList` keeps each
block's size and owner label and the list is already in ascending pre-compaction
start order — followed by exactly one free block `[total, capacity-1]` when the
allocated total is below capacity and by no free block otherwise; the packed
allocated blocks cover exactly `[0, total)`. -/
theorem compact_spec (a : MemoryAllocator) (hinv : covers 0 a.maxMemory a.blocks) :
    a.compact.blocks =
      packList 0 (a.blocks.filter (fun b => !(b.process == ""))) ++
        (if sizeTotal (a.blocks.filter (fun b => !(b.process == ""))) < a.maxMemory then
          [MemoryBlock.mk (sizeTotal (a.blocks.filter (fun b => !(b.process == ""))))
            (a.maxMemory - 1) ""]
        else []) ∧
    covers 0 (sizeTotal (a.blocks.filter (fun b => !(b.process == ""))))
      (packList 0 (a.blocks.filter (fun b => !(b.process == "")))) ∧
    sizeTotal (a.blocks.filter (fun b => !(b.process == ""))) ≤ a.maxMemory := by
  have hpos : ∀ b ∈ a.blocks.filter (fun b => !(b.process == "")), 0 < b.size :=
    fun b hb => covers_size_pos hinv b (List.mem_of_mem_filter hb)
  have hcov0 := packList_covers (a.blocks.filter (fun b => !(b.process == ""))) 0 hpos
  rw [zero_add] at hcov0
  have htot : sizeTotal (a.blocks.filter (fun b => !(b.process == ""))) ≤ a.maxMemory := by
    have h1 := @sizeTotal_filter_le (fun b => !(b.process == "")) a.blocks
      (fun b hb => le_of_lt (covers_size_pos hinv b hb))
    have h2 := covers_sizeTotal hinv
    omega
  refine ⟨?_, hcov0, htot⟩
  unfold MemoryAllocator.compact
  rw [sortBlocks_eq_self (covers_pairwise_lt hinv), compactGo_eq]
  show (if (0 : Int) + sizeTotal (a.blocks.filter (fun b => !(b.process == ""))) <
        a.maxMemory
      then packList 0 (a.blocks.filter (fun b => !(b.process == ""))) ++
        [MemoryBlock.mk
          ((0 : Int) + sizeTotal (a.blocks.filter (fun b => !(b.process == ""))))
          (a.maxMemory - 1) ""]
      else packList 0 (a.blocks.filter (fun b => !(b.process == "")))) = _
  rw [zero_add]
  by_cases hlt : sizeTotal (a.blocks.filter (fun b => !(b.process == ""))) < a.maxMemory
  · rw [if_pos hlt, if_pos hlt]
  · rw [if_neg hlt, if_neg hlt, List.append_nil]

/-- Witness for C6 on a concrete fragmented state: compaction packs `A` and `B`
to `[0,9]` and `[10,19]` and leaves one free block `[20,99]`. -/
theorem compact_spec_witness :
    (MemoryAllocator.compact
        ⟨100, [⟨0, 9, "A"⟩, ⟨10, 49, ""⟩, ⟨50, 59, "B"⟩, ⟨60, 99, ""⟩]⟩).blocks =
      packList 0 ((⟨100, [⟨0, 9, "A"⟩, ⟨10, 49, ""⟩, ⟨50, 59, "B"⟩, ⟨60, 99, ""⟩]⟩ :
          MemoryAllocator).blocks.filter (fun b => !(b.process == ""))) ++
        (if sizeTotal ((⟨100, [⟨0, 9, "A"⟩, ⟨10, 49, ""⟩, ⟨50, 59, "B"⟩, ⟨60, 99, ""⟩]⟩ :
            MemoryAllocator).blocks.filter (fun b => !(b.process == ""))) < 100 then
          [MemoryBlock.mk
            (sizeTotal ((⟨100, [⟨0, 9, "A"⟩, ⟨10, 49, ""⟩, ⟨50, 59, "B"⟩, ⟨60, 99, ""⟩]⟩ :
              MemoryAllocator).blocks.filter (fun b => !(b.process == "")))) (100 - 1) ""]
        else []) ∧
    covers 0 (sizeTotal ((⟨100, [⟨0, 9, "A"⟩, ⟨10, 49, ""⟩, ⟨50, 59, "B"⟩, ⟨60, 99, ""⟩]⟩ :
        MemoryAllocator).blocks.filter (fun b => !(b.process == ""))))
      (packList 0 ((⟨100, [⟨0, 9, "A"⟩, ⟨10, 49, ""⟩, ⟨50, 59, "B"⟩, ⟨60, 99, ""⟩]⟩ :
        MemoryAllocator).blocks.filter (fun b => !(b.process == "")))) ∧
    sizeTotal ((⟨100, [⟨0, 9, "A"⟩, ⟨10, 49, ""⟩, ⟨50, 59, "B"⟩, ⟨60, 99, ""⟩]⟩ :
      MemoryAllocator).blocks.filter (fun b => !(b.process == ""))) ≤ 100 :=
  compact_spec ⟨100, [⟨0, 9, "A"⟩, ⟨10, 49, ""⟩, ⟨50, 59, "B"⟩, ⟨60, 99, ""⟩]⟩ (by decide)

/-- C7: every state reachable from the freshly constructed allocator by
allocations of positive size, releases, and compactions is a partition of the
address space: blocks are sorted by ascending start, pairwise non-overlapping
(each ends before the next starts), of positive size, and their union is
exactly the address range `[0, capacity)`. -/
theorem reachable_coverage (cap : Int) (a : MemoryAllocator) (h : Reachable cap a) :
    a.blocks.Pairwise (fun b c => b.«end» < c.start) ∧
    (∀ b ∈ a.blocks, 0 < b.size) ∧
    a.blocks.Pairwise startLT ∧
    (∀ x : Int, (0 ≤ x ∧ x < cap) ↔ ∃ b ∈ a.blocks, b.start ≤ x ∧ x ≤ b.«end») := by
  rcases reachable_inv h with ⟨_, hc, _⟩
  exact ⟨covers_pairwise_end hc, covers_size_pos hc, covers_pairwise_lt hc,
    covers_mem_range hc⟩

/-- Witness for C7: the state after one first-fit allocation on a fresh
allocator of capacity 100. -/
theorem reachable_coverage_witness :
    ((MemoryAllocator.init 100).processRequest "A" 5 'F').2.blocks.Pairwise
      (fun b c => b.«end» < c.start) ∧
    (∀ b ∈ ((MemoryAllocator.init 100).processRequest "A" 5 'F').2.blocks, 0 < b.size) ∧
    ((MemoryAllocator.init 100).processRequest "A" 5 'F').2.blocks.Pairwise startLT ∧
    (∀ x : Int, (0 ≤ x ∧ x < 100) ↔
      ∃ b ∈ ((MemoryAllocator.init 100).processRequest "A" 5 'F').2.blocks,
        b.start ≤ x ∧ x ≤ b.«end») :=
  reachable_coverage 100 _
    (Reachable.alloc (Reachable.init (by decide)) (by decide) (by decide) (Or.inl rfl))

/-- C8: in every reachable state — hence after every `allocate`, `release`, or
`compact` call returns, releases freeing chains of adjacent blocks included —
no two consecutive blocks of the partition are both free. -/
theorem reachable_no_adjacent_free (cap : Int) (a : MemoryAllocator)
    (h : Reachable cap a) : noAdjFree a.blocks :=
  (reachable_inv h).2.2

/-- Witness for C8: the state after allocating and then releasing `A`, which
forces a merge of adjacent free blocks. -/
theorem reachable_no_adjacent_free_witness :
    noAdjFree (MemoryAllocator.release "A"
      ((MemoryAllocator.init 100).processRequest "A" 5 'F').2).2.blocks :=
  reachable_no_adjacent_free 100 _
    (Reachable.rel "A"
      (Reachable.alloc (Reachable.init (by decide)) (by decide) (by decide) (Or.inl rfl)))

/-- C1 is violated by the code: `release` calls `mergeAdjacentFreeBlocks`
inside its scan loop, and a merge in front of the running index shifts the
next block owned by the process onto an already visited position.  After
allocating `A`, `P`, `P` (capacity 100) and releasing `A`, the call
`release "P"` returns success yet the block `[10,14]` is still labelled `P` —
contradicting the claim that afterwards no block labelled `P` remains. -/
theorem release_skips_second_block :
    ((((((MemoryAllocator.init 100).processRequest "A" 5 'F').2.processRequest
        "P" 5 'F').2.processRequest "P" 5 'F').2.release "A").2.release "P").1 = true ∧
    MemoryBlock.mk 10 14 "P" ∈
      ((((((MemoryAllocator.init 100).processRequest "A" 5 'F').2.processRequest
        "P" 5 'F').2.processRequest "P" 5 'F').2.release "A").2.release "P").2.blocks := by
  simp [MemoryAllocator.release, releaseLoop, mergeAdjacentFreeBlocks, setFreeAt,
    sortBlocks, insertBlock, mergeGo, MemoryAllocator.processRequest,
    MemoryAllocator.allocateFirstFit, findFirstFit, allocAt,
    MemoryAllocator.init, MemoryBlock.size]

theorem allocAt_zero_mem {bs : List MemoryBlock} {i : Nat} {b : MemoryBlock}
    (hb : bs[i]? = some b) (hbsize : 0 < b.size) (p : String) :
    b ∈ allocAt p 0 bs i ∧ MemoryBlock.mk b.start (b.start - 1) p ∈ allocAt p 0 bs i := by
  constructor
  · rw [allocAt_mem_iff hb p 0, if_pos hbsize]
    have hbeq : { b with start := b.start + 0 - 1 + 1 } = b := by
      have hx : b.start + 0 - 1 + 1 = b.start := by omega
      rw [hx]
    rw [hbeq]
    rcases List.getElem?_eq_some_iff.mp hb with ⟨hi, _⟩
    rw [List.set_eq_take_cons_drop _ hi]
    simp
  · have hx : MemoryBlock.mk b.start (b.start - 1) p =
        MemoryBlock.mk b.start (b.start + 0 - 1) p := by
      norm_num
    rw [hx]
    exact allocAt_mem_new hb p 0

/-- C10 (implicit): none of the three strategies validates `size > 0`.  On any
invariant-satisfying state with at least one free block, a request of size 0
succeeds and inserts a degenerate block `[start, start-1]` of size 0 labelled
with the owner, while the free block it was carved from survives with its full
original extent (so the two share the same start address). -/
theorem allocate_zero_size (a : MemoryAllocator) (p : String) (c : Char)
    (hinv : covers 0 a.maxMemory a.blocks) (hc : c = 'F' ∨ c = 'B' ∨ c = 'W')
    (hfree : ∃ b ∈ a.blocks, b.process = "") :
    (a.processRequest p 0 c).1 = true ∧
    ∃ b ∈ a.blocks, b.process = "" ∧ b ∈ (a.processRequest p 0 c).2.blocks ∧
      MemoryBlock.mk b.start (b.start - 1) p ∈ (a.processRequest p 0 c).2.blocks := by
  rcases hfree with ⟨f, hf, hfp⟩
  have hf0 : (0 : Int) ≤ f.size := le_of_lt (covers_size_pos hinv f hf)
  rcases hc with rfl | rfl | rfl
  · rw [MemoryAllocator.processRequest, if_pos rfl]
    unfold MemoryAllocator.allocateFirstFit
    cases hff : findFirstFit 0 a.blocks with
    | none => exact absurd ⟨hfp, hf0⟩ (findFirstFit_none hff f hf)
    | some i =>
      rcases findFirstFit_some hff with ⟨b, hb, hb1, _, _⟩
      have hbsize : (0 : Int) < b.size := covers_size_pos hinv b (List.getElem?_mem hb)
      rcases allocAt_zero_mem hb hbsize p with ⟨hm1, hm2⟩
      exact ⟨rfl, b, List.getElem?_mem hb, hb1, hm1, hm2⟩
  · rw [MemoryAllocator.processRequest, if_neg (by decide), if_pos rfl]
    unfold MemoryAllocator.allocateBestFit
    cases hbf : bestFitLoop 0 a.blocks 0 (a.maxMemory + 1) none with
    | none =>
      rcases bestFitLoop_none hbf with ⟨_, hall⟩
      have hfsize : f.size < a.maxMemory + 1 := by
        have := covers_size_le hinv f hf
        omega
      exact absurd ⟨hfp, hf0, hfsize⟩ (hall f hf)
    | some i =>
      rcases bestFitLoop_some hbf with ⟨habs, _⟩ | ⟨k, kb, hkb, hik, hkb1, _, _, _, _⟩
      · exact absurd habs (by simp)
      · obtain rfl : i = k := by omega
        have hbsize : (0 : Int) < kb.size := covers_size_pos hinv kb (List.getElem?_mem hkb)
        rcases allocAt_zero_mem hkb hbsize p with ⟨hm1, hm2⟩
        exact ⟨rfl, kb, List.getElem?_mem hkb, hkb1, hm1, hm2⟩
  · rw [MemoryAllocator.processRequest, if_neg (by decide), if_neg (by decide), if_pos rfl]
    unfold MemoryAllocator.allocateWorstFit
    cases hwf : worstFitLoop 0 a.blocks 0 (-1) none with
    | none =>
      rcases worstFitLoop_none hwf with ⟨_, hall⟩
      have hfsize : (-1 : Int) < f.size := by omega
      exact absurd ⟨hfp, hf0, hfsize⟩ (hall f hf)
    | some i =>
      rcases worstFitLoop_some hwf with ⟨habs, _⟩ | ⟨k, kb, hkb, hik, hkb1, _, _, _, _⟩
      · exact absurd habs (by simp)
      · obtain rfl : i = k := by omega
        have hbsize : (0 : Int) < kb.size := covers_size_pos hinv kb (List.getElem?_mem hkb)
        rcases allocAt_zero_mem hkb hbsize p with ⟨hm1, hm2⟩
        exact ⟨rfl, kb, List.getElem?_mem hkb, hkb1, hm1, hm2⟩

/-- Witness for C10: a zero-sized first-fit request on a state with free blocks
succeeds and leaves the chosen free block intact next to a degenerate block. -/
theorem allocate_zero_size_witness :
    (MemoryAllocator.processRequest "Z" 0 'F'
      ⟨100, [⟨0, 29, ""⟩, ⟨30, 49, "A"⟩, ⟨50, 99, ""⟩]⟩).1 = true ∧
    ∃ b ∈ (⟨100, [⟨0, 29, ""⟩, ⟨30, 49, "A"⟩, ⟨50, 99, ""⟩]⟩ :
        MemoryAllocator).blocks, b.process = "" ∧
      b ∈ (MemoryAllocator.processRequest "Z" 0 'F'
        ⟨100, [⟨0, 29, ""⟩, ⟨30, 49, "A"⟩, ⟨50, 99, ""⟩]⟩).2.blocks ∧
      MemoryBlock.mk b.start (b.start - 1) "Z" ∈
        (MemoryAllocator.processRequest "Z" 0 'F'
          ⟨100, [⟨0, 29, ""⟩, ⟨30, 49, "A"⟩, ⟨50, 99, ""⟩]⟩).2.blocks :=
  allocate_zero_size ⟨100, [⟨0, 29, ""⟩, ⟨30, 49, "A"⟩, ⟨50, 99, ""⟩]⟩ "Z" 'F'
    (by decide) (Or.inl rfl) (by decide)
